import Mathlib

/-!
Shallow embedding of `src/qualifier/qualifier.py` (class `RestaurantManager`).

Python dictionaries are modelled as insertion-ordered association lists
(`List (String × α)`): assignment overwrites the entry in place, fresh keys
are appended, and iteration follows the list order, matching CPython dict
semantics.  Python `set`s of worker ids are modelled as duplicate-free lists
in insertion order; `set.add` appends a fresh element and is a no-op on a
present one.  The stored list only fixes the set's membership: the one place
the source iterates a set — the speciality candidate scan of line 55 —
iterates in CPython's hash-slot order, which is neither insertion order nor
reproducible across runs, so where that order matters the scan is modelled
over an arbitrary enumeration of the set (`selectPhaseEnum` /
`handleOrderEnum`, quantified over all permutations of the stored members);
`selectPhase` / `handleOrder` are the instance whose enumeration is the
stored insertion order, adequate for every property that does not depend on
the candidate order.

Exceptions raised by the handler (`KeyError` on a missing scope key or dict
lookup, `UnboundLocalError` from reading the loop variable `sta` after an
empty scan, `AttributeError` from calling `.send` on `None`) are modelled by
an explicit error result; mutations performed before the raise are kept in
the returned state, exactly as the Python object's fields would be.

The four awaited channel operations of an order relay are modelled by an
oracle (`RelayOracle`) saying whether each await succeeds and which values
flow, and the handler records the operations it actually performs as a trace
of `ChanOp`s.
-/

namespace Qualifier

/-- Kinds of Python exceptions the handler can raise. -/
inductive PyErr where
  | keyError
  | unboundLocal
  | attributeError
  | channelError
deriving DecidableEq, Repr

/-- State of a `RestaurantManager`: the `staff` dict (worker id to the stored
request handle, abstracted as a `Nat` token), the `special` dict (speciality
name to the set of worker ids advertising it) and the `busy` set. -/
structure RMState where
  staff : List (String × Nat)
  special : List (String × List String)
  busy : List String
deriving DecidableEq, Repr

/-- The state built by `RestaurantManager.__init__`. -/
def initState : RMState := ⟨[], [], []⟩

/-- Python dict assignment `d[k] = v`: overwrite in place or append. -/
def dictSet {α : Type} (d : List (String × α)) (k : String) (v : α) :
    List (String × α) :=
  match d with
  | [] => [(k, v)]
  | (k', v') :: rest => if k' = k then (k, v) :: rest else (k', v') :: dictSet rest k v

/-- Python dict lookup `d.get(k)` / `d[k]` (the latter raises on `none`). -/
def dictGet {α : Type} (d : List (String × α)) (k : String) : Option α :=
  match d with
  | [] => none
  | (k', v) :: rest => if k' = k then some v else dictGet rest k

/-- Python `d.pop(k)`: `none` models the `KeyError` of a missing key. -/
def dictPop {α : Type} (d : List (String × α)) (k : String) :
    Option (List (String × α)) :=
  match d with
  | [] => none
  | (k', v) :: rest =>
    if k' = k then some rest else (dictPop rest k).map (fun r => (k', v) :: r)

/-- Python `set.add` on the duplicate-free-list model of a set. -/
def setAdd (l : List String) (x : String) : List String :=
  if x ∈ l then l else l ++ [x]

/-- Python `set.remove` (the source only calls it on a present element). -/
def setRemove (l : List String) (x : String) : List String := l.erase x

/-- The keys of the `staff` dict, in insertion (registration) order. -/
def staffKeys (s : RMState) : List String := s.staff.map Prod.fst

/-- The speciality set stored for `c`, or empty when `c` is not a key. -/
def specGetD (s : RMState) (c : String) : List String :=
  (dictGet s.special c).getD []

/-- One iteration of the `staff.onduty` speciality loop:
`_special = self.special.get(spe, set()); _special.add(id);
self.special[spe] = _special`. -/
def specAdd (sp : List (String × List String)) (c id : String) :
    List (String × List String) :=
  dictSet sp c (setAdd ((dictGet sp c).getD []) id)

/-- The `"staff.onduty"` branch: store the request under the worker's id and
add the id to the set of every advertised speciality. -/
def handleOnduty (s : RMState) (id : String) (caps : List String)
    (handle : Nat) : RMState :=
  { staff := dictSet s.staff id handle
    special := caps.foldl (fun sp c => specAdd sp c id) s.special
    busy := s.busy }

/-- The `staff.offduty` loop over `self.special.items()` removing `id` from
every set containing it. -/
def scrub (sp : List (String × List String)) (id : String) :
    List (String × List String) :=
  sp.map (fun e => (e.1, if id ∈ e.2 then e.2.erase id else e.2))

/-- The `"staff.offduty"` branch: scrub the speciality sets, then
`self.staff.pop(id)`, which raises `KeyError` when `id` is unregistered
(the scrubbed index is already in place when the raise happens). -/
def handleOffduty (s : RMState) (id : String) : RMState × Option PyErr :=
  match dictPop s.staff id with
  | some st => ({ staff := st, special := scrub s.special id, busy := s.busy }, none)
  | none => ({ s with special := scrub s.special id }, some PyErr.keyError)

/-- Outcomes of the four awaited channel operations of one order relay:
whether each await succeeds, the payload the requester's `receive` yields and
the result the worker's `receive` yields. -/
structure RelayOracle where
  reqRecvOk : Bool
  payload : Nat
  staffSendOk : Bool
  staffRecvOk : Bool
  result : Nat
  reqSendOk : Bool
deriving DecidableEq, Repr

/-- A channel operation performed during an order relay. -/
inductive ChanOp where
  | reqRecv
  | staffSend (id : String) (p : Nat)
  | staffRecv (id : String)
  | reqSend (r : Nat)
deriving DecidableEq, Repr

/-- One `for sta in cands:` scan: `sta` takes each candidate in turn and the
loop breaks at the first candidate absent from `busy`, storing
`found = self.staff[sta]` (a `KeyError` if the candidate id is not a staff
key).  Returns the Python variables `(found, sta)` after the loop. -/
def scanIdle (staff : List (String × Nat)) (busy : List String) :
    List String → Option String →
    Except PyErr (Option (String × Nat) × Option String)
  | [], sta => Except.ok (none, sta)
  | w :: rest, _ =>
    if w ∈ busy then scanIdle staff busy rest (some w)
    else
      match dictGet staff w with
      | some h => Except.ok (some (w, h), some w)
      | none => Except.error PyErr.keyError

/-- The selection phase of the `"order"` branch: the speciality scan runs
when the requested speciality is a key of `self.special`, and the fallback
scan over `self.staff.keys()` runs when `found` is still `None`.  Both loops
share the variable `sta`. -/
def selectPhase (s : RMState) (c : String) :
    Except PyErr (Option (String × Nat) × Option String) :=
  match (match dictGet s.special c with
         | some cands => scanIdle s.staff s.busy cands none
         | none => Except.ok (none, none)) with
  | Except.error e => Except.error e
  | Except.ok (found1, sta1) =>
    match found1 with
    | some _ => Except.ok (found1, sta1)
    | none => scanIdle s.staff s.busy (s.staff.map Prod.fst) sta1

/-- Lines 68-75 of the source: `self.busy.add(sta)` has already produced
`s1`; then the four awaits run in order with no `try`/`finally`, so
`self.busy.remove(sta)` is reached only when all four succeed, and calling
`found.send` with `found = None` raises `AttributeError` after the
requester's payload was already pulled. -/
def relayPhase (s1 : RMState) (st : String) (found : Option (String × Nat))
    (o : RelayOracle) : RMState × List ChanOp × Option PyErr :=
  if o.reqRecvOk then
    match found with
    | none => (s1, [ChanOp.reqRecv], some PyErr.attributeError)
    | some (f, _h) =>
      if o.staffSendOk then
        if o.staffRecvOk then
          if o.reqSendOk then
            ({ s1 with busy := setRemove s1.busy st },
             [ChanOp.reqRecv, ChanOp.staffSend f o.payload,
              ChanOp.staffRecv f, ChanOp.reqSend o.result], none)
          else
            (s1, [ChanOp.reqRecv, ChanOp.staffSend f o.payload,
                  ChanOp.staffRecv f, ChanOp.reqSend o.result],
             some PyErr.channelError)
        else
          (s1, [ChanOp.reqRecv, ChanOp.staffSend f o.payload,
                ChanOp.staffRecv f], some PyErr.channelError)
      else
        (s1, [ChanOp.reqRecv, ChanOp.staffSend f o.payload],
         some PyErr.channelError)
  else (s1, [ChanOp.reqRecv], some PyErr.channelError)

/-- The `"order"` branch.  `spec = none` models an order scope without a
`"speciality"` key: `_scope["speciality"]` raises `KeyError` at once.  When
the two scans leave `sta` unbound, `self.busy.add(sta)` raises
`UnboundLocalError`. -/
def handleOrder (s : RMState) (spec : Option String) (o : RelayOracle) :
    RMState × List ChanOp × Option PyErr :=
  match spec with
  | none => (s, [], some PyErr.keyError)
  | some c =>
    match selectPhase s c with
    | Except.error e => (s, [], some e)
    | Except.ok (found, sta) =>
      match sta with
      | none => (s, [], some PyErr.unboundLocal)
      | some st => relayPhase { s with busy := setAdd s.busy st } st found o

/-- Events restricted to the two staff-registry kinds. -/
inductive StaffEvent where
  | onduty (id : String) (caps : List String) (handle : Nat)
  | offduty (id : String)
deriving DecidableEq, Repr

/-- Every event kind the single entry point dispatches on. -/
inductive Event where
  | onduty (id : String) (caps : List String) (handle : Nat)
  | offduty (id : String)
  | order (spec : Option String) (o : RelayOracle)
deriving DecidableEq, Repr

/-- Apply one staff event; an event that raises still leaves its earlier
mutations in the state, as in Python. -/
def applyStaffEvent (s : RMState) : StaffEvent → RMState
  | StaffEvent.onduty id caps h => handleOnduty s id caps h
  | StaffEvent.offduty id => (handleOffduty s id).1

/-- Apply one event of any kind. -/
def applyEvent (s : RMState) : Event → RMState
  | Event.onduty id caps h => handleOnduty s id caps h
  | Event.offduty id => (handleOffduty s id).1
  | Event.order spec o => (handleOrder s spec o).1

/-- Run a sequence of staff events from the freshly initialised manager. -/
def runStaffEvents (es : List StaffEvent) : RMState :=
  es.foldl applyStaffEvent initState

/-- Run a sequence of arbitrary events from the freshly initialised
manager. -/
def runEvents (es : List Event) : RMState :=
  es.foldl applyEvent initState

theorem dictGet_dictSet {α : Type} (d : List (String × α)) (k : String)
    (v : α) (k' : String) :
    dictGet (dictSet d k v) k' = if k' = k then some v else dictGet d k' := by
  induction d with
  | nil =>
    by_cases h : k' = k
    · subst h; simp [dictSet, dictGet]
    · have h2 : ¬ k = k' := fun hh => h hh.symm
      simp [dictSet, dictGet, h, h2]
  | cons e rest ih =>
    obtain ⟨k2, v2⟩ := e
    by_cases h1 : k2 = k
    · subst h1
      by_cases h2 : k' = k2
      · subst h2; simp [dictSet, dictGet]
      · have h3 : ¬ k2 = k' := fun hh => h2 hh.symm
        simp [dictSet, dictGet, h2, h3]
    · by_cases h2 : k2 = k'
      · subst h2
        simp [dictSet, dictGet, h1]
      · simp [dictSet, dictGet, h1, h2, ih]

theorem keys_dictSet {α : Type} (d : List (String × α)) (k : String) (v : α) :
    (dictSet d k v).map Prod.fst =
      if k ∈ d.map Prod.fst then d.map Prod.fst else d.map Prod.fst ++ [k] := by
  induction d with
  | nil => simp [dictSet]
  | cons e rest ih =>
    obtain ⟨k2, v2⟩ := e
    by_cases h1 : k2 = k
    · subst h1; simp [dictSet]
    · have h2 : ¬ k = k2 := fun h => h1 h.symm
      by_cases h3 : k ∈ rest.map Prod.fst <;>
        simp [dictSet, h1, h2, h3, ih]

theorem mem_keys_dictSet {α : Type} (d : List (String × α)) (k : String)
    (v : α) (w : String) :
    w ∈ (dictSet d k v).map Prod.fst ↔ w ∈ d.map Prod.fst ∨ w = k := by
  rw [keys_dictSet]
  by_cases h : k ∈ d.map Prod.fst
  · simp only [h, if_true]
    constructor
    · exact Or.inl
    · rintro (hw | rfl) <;> [exact hw; exact h]
  · simp [h]

theorem mem_dictSet {α : Type} (d : List (String × α)) (k : String) (v : α)
    (e : String × α) : e ∈ dictSet d k v → e ∈ d ∨ e = (k, v) := by
  induction d with
  | nil => simp [dictSet]
  | cons e2 rest ih =>
    obtain ⟨k2, v2⟩ := e2
    by_cases h1 : k2 = k
    · subst h1
      intro h
      have h0 : dictSet ((k2, v2) :: rest) k2 v = (k2, v) :: rest := by
        simp [dictSet]
      rw [h0] at h
      rcases List.mem_cons.mp h with rfl | h3
      · exact Or.inr rfl
      · exact Or.inl (List.mem_cons_of_mem _ h3)
    · simp only [dictSet, h1, if_false, List.mem_cons]
      tauto

theorem dictGet_mem {α : Type} (d : List (String × α)) (k : String) (v : α) :
    dictGet d k = some v → (k, v) ∈ d := by
  induction d with
  | nil => simp [dictGet]
  | cons e rest ih =>
    obtain ⟨k2, v2⟩ := e
    by_cases h1 : k2 = k
    · subst h1
      simp only [dictGet, if_true]
      rintro h
      cases h
      exact List.mem_cons_self _ _
    · simp only [dictGet, h1, if_false]
      intro h
      exact List.mem_cons_of_mem _ (ih h)

theorem dictGet_isSome_of_mem_keys {α : Type} (d : List (String × α))
    (k : String) : k ∈ d.map Prod.fst → ∃ v, dictGet d k = some v := by
  induction d with
  | nil => simp
  | cons e rest ih =>
    obtain ⟨k2, v2⟩ := e
    by_cases h1 : k2 = k
    · subst h1; exact fun _ => ⟨v2, by simp [dictGet]⟩
    · intro h
      have h2 : k ∈ rest.map Prod.fst := by
        rcases List.mem_cons.mp h with h3 | h3
        · exact absurd h3.symm h1
        · exact h3
      simpa [dictGet, h1] using ih h2

theorem dictGet_eq_none {α : Type} (d : List (String × α)) (k : String) :
    dictGet d k = none ↔ k ∉ d.map Prod.fst := by
  induction d with
  | nil => simp [dictGet]
  | cons e rest ih =>
    obtain ⟨k2, v2⟩ := e
    by_cases h1 : k2 = k
    · subst h1; simp [dictGet]
    · have h2 : ¬ k = k2 := fun h => h1 h.symm
      simp [dictGet, h1, h2, ih]

theorem dictPop_eq_none {α : Type} (d : List (String × α)) (k : String) :
    dictPop d k = none ↔ k ∉ d.map Prod.fst := by
  induction d with
  | nil => simp [dictPop]
  | cons e rest ih =>
    obtain ⟨k2, v2⟩ := e
    by_cases h1 : k2 = k
    · subst h1; simp [dictPop]
    · have h2 : ¬ k = k2 := fun h => h1 h.symm
      cases h3 : dictPop rest k <;>
        simp_all [dictPop, h1, h2]

theorem dictPop_keys {α : Type} (d : List (String × α)) (k : String)
    (d' : List (String × α)) :
    dictPop d k = some d' → d'.map Prod.fst = (d.map Prod.fst).erase k := by
  induction d generalizing d' with
  | nil => simp [dictPop]
  | cons e rest ih =>
    obtain ⟨k2, v2⟩ := e
    by_cases h1 : k2 = k
    · subst h1
      simp only [dictPop, if_true]
      rintro h
      cases h
      simp
    · cases h3 : dictPop rest k with
      | none => simp [dictPop, h1, h3]
      | some r =>
        simp only [dictPop, h1, if_false, h3, Option.map_some']
        rintro h
        cases h
        have h4 : ¬ (k2 == k) = true := by simpa using h1
        simp [List.erase_cons_tail h4, ih r h3]

theorem dictPop_mem {α : Type} (d : List (String × α)) (k : String)
    (d' : List (String × α)) (e : String × α) :
    dictPop d k = some d' → e ∈ d' → e ∈ d := by
  induction d generalizing d' with
  | nil => simp [dictPop]
  | cons e2 rest ih =>
    obtain ⟨k2, v2⟩ := e2
    by_cases h1 : k2 = k
    · subst h1
      simp only [dictPop, if_true]
      rintro h he
      cases h
      exact List.mem_cons_of_mem _ he
    · cases h3 : dictPop rest k with
      | none => simp [dictPop, h1, h3]
      | some r =>
        simp only [dictPop, h1, if_false, h3, Option.map_some']
        rintro h he
        cases h
        rcases List.mem_cons.mp he with rfl | h4
        · exact List.mem_cons_self _ _
        · exact List.mem_cons_of_mem _ (ih r h3 h4)

theorem mem_setAdd (l : List String) (x w : String) :
    w ∈ setAdd l x ↔ w ∈ l ∨ w = x := by
  by_cases h : x ∈ l
  · simp only [setAdd, h, if_true]
    constructor
    · exact Or.inl
    · rintro (hw | rfl) <;> [exact hw; exact h]
  · simp [setAdd, h]

theorem nodup_setAdd (l : List String) (x : String) :
    l.Nodup → (setAdd l x).Nodup := by
  intro h
  by_cases hx : x ∈ l
  · simpa [setAdd, hx] using h
  · simp [setAdd, hx, List.nodup_append, h]

theorem keys_scrub (sp : List (String × List String)) (id : String) :
    (scrub sp id).map Prod.fst = sp.map Prod.fst := by
  simp [scrub]

theorem dictGet_scrub (sp : List (String × List String)) (id c : String) :
    dictGet (scrub sp id) c =
      (dictGet sp c).map (fun l => if id ∈ l then l.erase id else l) := by
  induction sp with
  | nil => simp [scrub, dictGet]
  | cons e rest ih =>
    obtain ⟨k2, l2⟩ := e
    by_cases h1 : k2 = c
    · simp [scrub, dictGet, h1]
    · simpa [scrub, dictGet, h1] using ih

theorem mem_scrub (sp : List (String × List String)) (id : String)
    (e : String × List String) :
    e ∈ scrub sp id →
      ∃ l, (e.1, l) ∈ sp ∧ e.2 = (if id ∈ l then l.erase id else l) := by
  intro h
  rcases List.mem_map.mp h with ⟨⟨c, l⟩, hmem, heq⟩
  exact ⟨l, by simpa [← heq] using hmem, by simp [← heq]⟩

theorem scrub_eq_self (sp : List (String × List String)) (id : String) :
    (∀ e ∈ sp, id ∉ e.2) → scrub sp id = sp := by
  intro h
  induction sp with
  | nil => rfl
  | cons e rest ih =>
    obtain ⟨c, l⟩ := e
    have h1 : id ∉ l := h (c, l) (List.mem_cons_self _ _)
    simp only [scrub, List.map_cons, h1, if_false]
    have h2 := ih (fun e he => h e (List.mem_cons_of_mem _ he))
    simpa [scrub] using h2

/-- Structural well-formedness of reachable manager states: both dicts have
duplicate-free key lists, every speciality set is duplicate-free, and every
id in a speciality set is a staff key. -/
structure Inv (s : RMState) : Prop where
  staffNodup : (staffKeys s).Nodup
  specKeysNodup : (s.special.map Prod.fst).Nodup
  specListsNodup : ∀ e ∈ s.special, (e.2 : List String).Nodup
  specSub : ∀ e ∈ s.special, ∀ w ∈ (e.2 : List String), w ∈ staffKeys s

theorem inv_init : Inv initState := by
  refine ⟨?_, ?_, ?_, ?_⟩ <;> simp [initState, staffKeys]

theorem mem_specAdd (sp : List (String × List String)) (c2 id c w : String) :
    w ∈ (dictGet (specAdd sp c2 id) c).getD [] ↔
      w ∈ (dictGet sp c).getD [] ∨ (w = id ∧ c = c2) := by
  unfold specAdd
  rw [dictGet_dictSet]
  by_cases h : c = c2
  · subst h
    cases h2 : dictGet sp c <;> simp [mem_setAdd, h2]
  · simp [h]

theorem mem_specFold (id : String) (caps : List String) :
    ∀ (sp : List (String × List String)) (c w : String),
      w ∈ (dictGet (caps.foldl (fun sp2 c2 => specAdd sp2 c2 id) sp) c).getD []
        ↔ w ∈ (dictGet sp c).getD [] ∨ (w = id ∧ c ∈ caps) := by
  induction caps with
  | nil => simp
  | cons c2 rest ih =>
    intro sp c w
    simp only [List.foldl_cons]
    rw [ih, mem_specAdd]
    simp only [List.mem_cons]
    tauto

theorem specFold_keysNodup (id : String) (caps : List String) :
    ∀ (sp : List (String × List String)),
      (sp.map Prod.fst).Nodup →
      ((caps.foldl (fun sp2 c2 => specAdd sp2 c2 id) sp).map Prod.fst).Nodup := by
  induction caps with
  | nil => exact fun sp h => h
  | cons c2 rest ih =>
    intro sp h
    refine ih _ ?_
    unfold specAdd
    rw [keys_dictSet]
    by_cases h2 : c2 ∈ sp.map Prod.fst
    · simpa [h2] using h
    · simp [h2, List.nodup_append, h]

theorem specFold_listsNodup (id : String) (caps : List String) :
    ∀ (sp : List (String × List String)),
      (∀ e ∈ sp, (e.2 : List String).Nodup) →
      ∀ e ∈ caps.foldl (fun sp2 c2 => specAdd sp2 c2 id) sp,
        (e.2 : List String).Nodup := by
  induction caps with
  | nil => exact fun sp h => h
  | cons c2 rest ih =>
    intro sp h
    refine ih _ ?_
    intro e he
    rcases mem_dictSet _ _ _ _ he with h2 | h2
    · exact h e h2
    · subst h2
      refine nodup_setAdd _ _ ?_
      cases h3 : dictGet sp c2 with
      | none => simp
      | some l => simpa using h _ (dictGet_mem _ _ _ h3)

theorem specFold_sub (id : String) (caps : List String)
    (ks : List String) (hid : id ∈ ks) :
    ∀ (sp : List (String × List String)),
      (∀ e ∈ sp, ∀ w ∈ (e.2 : List String), w ∈ ks) →
      ∀ e ∈ caps.foldl (fun sp2 c2 => specAdd sp2 c2 id) sp,
        ∀ w ∈ (e.2 : List String), w ∈ ks := by
  induction caps with
  | nil => exact fun sp h => h
  | cons c2 rest ih =>
    intro sp h
    refine ih _ ?_
    intro e he w hw
    rcases mem_dictSet _ _ _ _ he with h2 | h2
    · exact h e h2 w hw
    · subst h2
      rcases (mem_setAdd _ _ _).mp hw with h3 | h3
      · cases h4 : dictGet sp c2 with
        | none => rw [h4] at h3; simp at h3
        | some l =>
          rw [h4] at h3
          exact h _ (dictGet_mem _ _ _ h4) w (by simpa using h3)
      · subst h3; exact hid

theorem inv_onduty (s : RMState) (id : String) (caps : List String)
    (handle : Nat) : Inv s → Inv (handleOnduty s id caps handle) := by
  intro hInv
  have hkeys : ∀ w, w ∈ staffKeys (handleOnduty s id caps handle) ↔
      w ∈ staffKeys s ∨ w = id := by
    intro w
    simpa [staffKeys, handleOnduty] using
      mem_keys_dictSet s.staff id handle w
  refine ⟨?_, ?_, ?_, ?_⟩
  · show ((dictSet s.staff id handle).map Prod.fst).Nodup
    rw [keys_dictSet]
    by_cases h : id ∈ s.staff.map Prod.fst
    · simpa [h] using hInv.staffNodup
    · rw [if_neg h]
      simp only [List.nodup_append, h]
      exact ⟨hInv.staffNodup, by simp, by simp [h]⟩
  · exact specFold_keysNodup id caps s.special hInv.specKeysNodup
  · exact specFold_listsNodup id caps s.special hInv.specListsNodup
  · intro e he w hw
    refine specFold_sub id caps (staffKeys (handleOnduty s id caps handle))
      ((hkeys id).mpr (Or.inr rfl)) s.special ?_ e he w hw
    intro e2 he2 w2 hw2
    exact (hkeys w2).mpr (Or.inl (hInv.specSub e2 he2 w2 hw2))

theorem inv_offduty (s : RMState) (id : String) :
    Inv s → Inv ((handleOffduty s id).1) := by
  intro hInv
  unfold handleOffduty
  cases hpop : dictPop s.staff id with
  | some st =>
    have hkeys : st.map Prod.fst = (s.staff.map Prod.fst).erase id :=
      dictPop_keys _ _ _ hpop
    refine ⟨?_, ?_, ?_, ?_⟩
    · show (st.map Prod.fst).Nodup
      rw [hkeys]
      exact hInv.staffNodup.erase id
    · show ((scrub s.special id).map Prod.fst).Nodup
      rw [keys_scrub]; exact hInv.specKeysNodup
    · intro e he
      rcases mem_scrub _ _ _ he with ⟨l, hl, he2⟩
      have hnd : l.Nodup := hInv.specListsNodup (e.1, l) hl
      rw [he2]
      by_cases h : id ∈ l
      · simpa [h] using hnd.erase id
      · simpa [h] using hnd
    · intro e he w hw
      rcases mem_scrub _ _ _ he with ⟨l, hl, he2⟩
      have hnd : l.Nodup := hInv.specListsNodup (e.1, l) hl
      rw [he2] at hw
      have hwl : w ∈ l ∧ w ≠ id := by
        by_cases h : id ∈ l
        · rw [if_pos h] at hw
          have := hnd.mem_erase_iff.mp hw
          exact ⟨this.2, this.1⟩
        · rw [if_neg h] at hw
          exact ⟨hw, fun hwi => h (hwi ▸ hw)⟩
      have hws : w ∈ staffKeys s := hInv.specSub (e.1, l) hl w hwl.1
      show w ∈ st.map Prod.fst
      rw [hkeys]
      exact (List.mem_erase_of_ne hwl.2).mpr hws
  | none =>
    refine ⟨hInv.staffNodup, ?_, ?_, ?_⟩
    · show ((scrub s.special id).map Prod.fst).Nodup
      rw [keys_scrub]; exact hInv.specKeysNodup
    · intro e he
      rcases mem_scrub _ _ _ he with ⟨l, hl, he2⟩
      have hnd : l.Nodup := hInv.specListsNodup (e.1, l) hl
      rw [he2]
      by_cases h : id ∈ l
      · simpa [h] using hnd.erase id
      · simpa [h] using hnd
    · intro e he w hw
      rcases mem_scrub _ _ _ he with ⟨l, hl, he2⟩
      rw [he2] at hw
      have hwl : w ∈ l := by
        by_cases h : id ∈ l
        · rw [if_pos h] at hw; exact List.mem_of_mem_erase hw
        · rwa [if_neg h] at hw
      exact hInv.specSub (e.1, l) hl w hwl

theorem relayPhase_frame (s1 : RMState) (st : String)
    (found : Option (String × Nat)) (o : RelayOracle) :
    (relayPhase s1 st found o).1.staff = s1.staff ∧
      (relayPhase s1 st found o).1.special = s1.special := by
  unfold relayPhase
  cases o.reqRecvOk <;> cases found <;> split_ifs <;> simp

theorem handleOrder_frame (s : RMState) (spec : Option String)
    (o : RelayOracle) :
    (handleOrder s spec o).1.staff = s.staff ∧
      (handleOrder s spec o).1.special = s.special := by
  unfold handleOrder
  cases spec with
  | none => simp
  | some c =>
    cases hsel : selectPhase s c with
    | error e => simp [hsel]
    | ok p =>
      obtain ⟨found, sta⟩ := p
      cases sta with
      | none => simp [hsel]
      | some st =>
        simpa [hsel] using
          relayPhase_frame { s with busy := setAdd s.busy st } st found o

theorem inv_of_frame (s s' : RMState) (h1 : s'.staff = s.staff)
    (h2 : s'.special = s.special) : Inv s → Inv s' := by
  intro hInv
  have hk : staffKeys s' = staffKeys s := by simp [staffKeys, h1]
  exact ⟨hk ▸ hInv.staffNodup, h2 ▸ hInv.specKeysNodup,
    h2 ▸ hInv.specListsNodup,
    fun e he w hw => hk ▸ hInv.specSub e (h2 ▸ he) w hw⟩

theorem inv_staff_step (s : RMState) (e : StaffEvent) :
    Inv s → Inv (applyStaffEvent s e) := by
  intro hInv
  cases e with
  | onduty id caps h => exact inv_onduty s id caps h hInv
  | offduty id => exact inv_offduty s id hInv

theorem inv_step (s : RMState) (e : Event) : Inv s → Inv (applyEvent s e) := by
  intro hInv
  cases e with
  | onduty id caps h => exact inv_onduty s id caps h hInv
  | offduty id => exact inv_offduty s id hInv
  | order spec o =>
    exact inv_of_frame s _ (handleOrder_frame s spec o).1
      (handleOrder_frame s spec o).2 hInv

theorem inv_foldl_staff (es : List StaffEvent) :
    ∀ s : RMState, Inv s → Inv (es.foldl applyStaffEvent s) := by
  induction es with
  | nil => exact fun s h => h
  | cons e rest ih =>
    intro s h
    exact ih (applyStaffEvent s e) (inv_staff_step s e h)

theorem inv_runStaff (es : List StaffEvent) : Inv (runStaffEvents es) :=
  inv_foldl_staff es initState inv_init

theorem inv_foldl (es : List Event) :
    ∀ s : RMState, Inv s → Inv (es.foldl applyEvent s) := by
  induction es with
  | nil => exact fun s h => h
  | cons e rest ih =>
    intro s h
    exact ih (applyEvent s e) (inv_step s e h)

theorem inv_runEvents (es : List Event) : Inv (runEvents es) :=
  inv_foldl es initState inv_init

/-- The capabilities a worker `w` has advertised since its most recent
offduty event: onduty events for `w` accumulate their lists, an offduty
event for `w` resets the accumulator. -/
def capsStep (w : String) (acc : List String) : StaffEvent → List String
  | StaffEvent.onduty id caps _ => if id = w then acc ++ caps else acc
  | StaffEvent.offduty id => if id = w then [] else acc

/-- Union (in order) of the capability lists of all onduty events for `w`
since the last offduty event for `w`. -/
def capsSince (es : List StaffEvent) (w : String) : List String :=
  es.foldl (capsStep w) []

/-- The capability list of the most recent onduty event for `w`, if any. -/
def latestOndutyCaps (es : List StaffEvent) (w : String) :
    Option (List String) :=
  es.foldl (fun acc e =>
    match e with
    | StaffEvent.onduty id caps _ => if id = w then some caps else acc
    | StaffEvent.offduty _ => acc) none

theorem mem_scrub_getD (sp : List (String × List String))
    (hnd : ∀ e ∈ sp, (e.2 : List String).Nodup) (id c w : String) :
    w ∈ (dictGet (scrub sp id) c).getD [] ↔
      (w ∈ (dictGet sp c).getD [] ∧ w ≠ id) := by
  rw [dictGet_scrub]
  cases h : dictGet sp c with
  | none => simp
  | some l =>
    have hl : l.Nodup := hnd (c, l) (dictGet_mem _ _ _ h)
    simp only [Option.map_some', Option.getD_some]
    by_cases h2 : id ∈ l
    · rw [if_pos h2]
      rw [hl.mem_erase_iff]
      tauto
    · rw [if_neg h2]
      constructor
      · intro hw
        exact ⟨hw, fun he => h2 (he ▸ hw)⟩
      · exact And.left

theorem mem_staffKeys_offduty (s : RMState) (id w : String) (hne : w ≠ id) :
    w ∈ staffKeys ((handleOffduty s id).1) ↔ w ∈ staffKeys s := by
  unfold handleOffduty
  cases hpop : dictPop s.staff id with
  | some st =>
    have hkeys := dictPop_keys _ _ _ hpop
    show w ∈ st.map Prod.fst ↔ w ∈ s.staff.map Prod.fst
    rw [hkeys]
    exact List.mem_erase_of_ne hne
  | none => simp [staffKeys]

theorem special_offduty (s : RMState) (id : String) :
    ((handleOffduty s id).1).special = scrub s.special id := by
  unfold handleOffduty
  cases dictPop s.staff id <;> simp

theorem c4_step (e : StaffEvent) (s : RMState) (f : String → List String)
    (hInv : Inv s)
    (hemp : ∀ w, w ∉ staffKeys s → f w = [])
    (hiff : ∀ c w, w ∈ specGetD s c ↔ (w ∈ staffKeys s ∧ c ∈ f w)) :
    ∀ c w, w ∈ specGetD (applyStaffEvent s e) c ↔
      (w ∈ staffKeys (applyStaffEvent s e) ∧ c ∈ capsStep w (f w) e) := by
  intro c w
  cases e with
  | onduty id caps h =>
    simp only [applyStaffEvent]
    have hmem : w ∈ specGetD (handleOnduty s id caps h) c ↔
        w ∈ specGetD s c ∨ (w = id ∧ c ∈ caps) := by
      simpa [specGetD, handleOnduty] using mem_specFold id caps s.special c w
    have hk : w ∈ staffKeys (handleOnduty s id caps h) ↔
        w ∈ staffKeys s ∨ w = id := by
      simpa [staffKeys, handleOnduty] using mem_keys_dictSet s.staff id h w
    show w ∈ specGetD (handleOnduty s id caps h) c ↔ _
    rw [hmem, hk, hiff c w]
    by_cases hw : id = w
    · subst hw
      by_cases hks : id ∈ staffKeys s
      · simp [capsStep, hks]
      · have hf : f id = [] := hemp id hks
        simp [capsStep, hks, hf]
    · have hw2 : ¬ w = id := fun hh => hw hh.symm
      simp [capsStep, hw, hw2]
  | offduty id =>
    simp only [applyStaffEvent]
    have hscrub : w ∈ specGetD ((handleOffduty s id).1) c ↔
        (w ∈ specGetD s c ∧ w ≠ id) := by
      show w ∈ (dictGet ((handleOffduty s id).1).special c).getD [] ↔ _
      rw [special_offduty]
      exact mem_scrub_getD s.special hInv.specListsNodup id c w
    show w ∈ specGetD ((handleOffduty s id).1) c ↔ _
    rw [hscrub, hiff c w]
    by_cases hw : id = w
    · subst hw
      simp [capsStep]
    · have hw2 : w ≠ id := fun hh => hw hh.symm
      rw [show capsStep w (f w) (StaffEvent.offduty id) = f w from by
        simp [capsStep, hw]]
      rw [mem_staffKeys_offduty s id w hw2]
      tauto

theorem c4_emp_step (e : StaffEvent) (s : RMState) (f : String → List String)
    (hemp : ∀ w, w ∉ staffKeys s → f w = []) :
    ∀ w, w ∉ staffKeys (applyStaffEvent s e) → capsStep w (f w) e = [] := by
  intro w hw
  cases e with
  | onduty id caps h =>
    have hk : w ∈ staffKeys (handleOnduty s id caps h) ↔
        w ∈ staffKeys s ∨ w = id := by
      simpa [staffKeys, handleOnduty] using mem_keys_dictSet s.staff id h w
    by_cases hiw : id = w
    · exact absurd (hk.mpr (Or.inr hiw.symm)) hw
    · simp only [capsStep, if_neg hiw]
      exact hemp w (fun hmem => hw (hk.mpr (Or.inl hmem)))
  | offduty id =>
    by_cases hiw : id = w
    · simp [capsStep, hiw]
    · simp only [capsStep, if_neg hiw]
      exact hemp w (fun hmem =>
        hw ((mem_staffKeys_offduty s id w (fun hh => hiw hh.symm)).mpr hmem))

theorem c4_aux (es : List StaffEvent) :
    ∀ (s : RMState) (f : String → List String),
      Inv s →
      (∀ w, w ∉ staffKeys s → f w = []) →
      (∀ c w, w ∈ specGetD s c ↔ (w ∈ staffKeys s ∧ c ∈ f w)) →
      ∀ c w, w ∈ specGetD (es.foldl applyStaffEvent s) c ↔
        (w ∈ staffKeys (es.foldl applyStaffEvent s) ∧
          c ∈ es.foldl (capsStep w) (f w)) := by
  induction es with
  | nil => intro s f _ _ hiff c w; simpa using hiff c w
  | cons e rest ih =>
    intro s f hInv hemp hiff c w
    have h1 := inv_staff_step s e hInv
    have h2 := c4_emp_step e s f hemp
    have h3 := c4_step e s f hInv hemp hiff
    simpa using ih (applyStaffEvent s e) (fun w2 => capsStep w2 (f w2) e)
      h1 h2 h3 c w

/-- The Boolean test `sta not in self.busy` used by both selection scans. -/
def idleIn (busy : List String) (x : String) : Bool := decide (x ∉ busy)

theorem scanIdle_found (staff : List (String × Nat)) (busy : List String) :
    ∀ (cands : List String) (sta0 : Option String) (w : String),
      (∀ x ∈ cands, x ∈ staff.map Prod.fst) →
      cands.find? (idleIn busy) = some w →
      ∃ hw, dictGet staff w = some hw ∧
        scanIdle staff busy cands sta0 = Except.ok (some (w, hw), some w) := by
  intro cands
  induction cands with
  | nil => intro sta0 w _ hfind; simp at hfind
  | cons x rest ih =>
    intro sta0 w hsub hfind
    by_cases hx : x ∈ busy
    · have hpred : ¬ (idleIn busy x = true) := by simp [idleIn, hx]
      rw [List.find?_cons_of_neg _ hpred] at hfind
      have hstep : scanIdle staff busy (x :: rest) sta0 =
          scanIdle staff busy rest (some x) := by
        simp [scanIdle, hx]
      rw [hstep]
      exact ih (some x) w (fun y hy => hsub y (List.mem_cons_of_mem _ hy)) hfind
    · have hpred : idleIn busy x = true := by simp [idleIn, hx]
      rw [List.find?_cons_of_pos _ hpred] at hfind
      injection hfind with hxw
      subst hxw
      have hxk : x ∈ staff.map Prod.fst := hsub x (List.mem_cons_self _ _)
      obtain ⟨hv, hget⟩ := dictGet_isSome_of_mem_keys staff x hxk
      refine ⟨hv, hget, ?_⟩
      simp [scanIdle, hx, hget]

theorem scanIdle_none (staff : List (String × Nat)) (busy : List String) :
    ∀ (cands : List String) (sta0 : Option String),
      cands.find? (idleIn busy) = none →
      ∃ sta1, scanIdle staff busy cands sta0 = Except.ok (none, sta1) := by
  intro cands
  induction cands with
  | nil => intro sta0 _; exact ⟨sta0, rfl⟩
  | cons x rest ih =>
    intro sta0 hfind
    have hx : x ∈ busy := by
      by_contra hx
      have hp : idleIn busy x = true := by simp [idleIn, hx]
      rw [List.find?_cons_of_pos _ hp] at hfind
      cases hfind
    have hpred : ¬ (idleIn busy x = true) := by simp [idleIn, hx]
    rw [List.find?_cons_of_neg _ hpred] at hfind
    rw [show scanIdle staff busy (x :: rest) sta0 =
        scanIdle staff busy rest (some x) from by simp [scanIdle, hx]]
    exact ih (some x) hfind

theorem selectPhase_cap (s : RMState) (c w : String) (hInv : Inv s)
    (hfind : (specGetD s c).find? (idleIn s.busy) = some w) :
    ∃ hw, selectPhase s c = Except.ok (some (w, hw), some w) := by
  cases hget : dictGet s.special c with
  | none => exfalso; simp [specGetD, hget] at hfind
  | some cands =>
    have hsub : ∀ x ∈ cands, x ∈ s.staff.map Prod.fst := fun x hx =>
      hInv.specSub (c, cands) (dictGet_mem _ _ _ hget) x hx
    have hfind2 : cands.find? (idleIn s.busy) = some w := by
      simpa [specGetD, hget] using hfind
    obtain ⟨hw, hgetw, hscan⟩ :=
      scanIdle_found s.staff s.busy cands none w hsub hfind2
    exact ⟨hw, by simp [selectPhase, hget, hscan]⟩

theorem selectPhase_fallback (s : RMState) (c w : String)
    (hfind1 : (specGetD s c).find? (idleIn s.busy) = none)
    (hfind2 : (s.staff.map Prod.fst).find? (idleIn s.busy) = some w) :
    ∃ hw, selectPhase s c = Except.ok (some (w, hw), some w) := by
  cases hget : dictGet s.special c with
  | none =>
    obtain ⟨hw, hgetw, hscan⟩ := scanIdle_found s.staff s.busy
      (s.staff.map Prod.fst) none w (fun x hx => hx) hfind2
    exact ⟨hw, by simp [selectPhase, hget, hscan]⟩
  | some cands =>
    have hfindc : cands.find? (idleIn s.busy) = none := by
      simpa [specGetD, hget] using hfind1
    obtain ⟨sta1, hscan1⟩ :=
      scanIdle_none s.staff s.busy cands none hfindc
    obtain ⟨hw, hgetw, hscan⟩ := scanIdle_found s.staff s.busy
      (s.staff.map Prod.fst) sta1 w (fun x hx => hx) hfind2
    exact ⟨hw, by simp [selectPhase, hget, hscan1, hscan]⟩

theorem handleOrder_ok (s : RMState) (c : String) (o : RelayOracle)
    (w : String) (hw : Nat) (st : String)
    (hsel : selectPhase s c = Except.ok (some (w, hw), some st))
    (h1 : o.reqRecvOk = true) (h2 : o.staffSendOk = true)
    (h3 : o.staffRecvOk = true) (h4 : o.reqSendOk = true) :
    handleOrder s (some c) o =
      ({ s with busy := setRemove (setAdd s.busy st) st },
       [ChanOp.reqRecv, ChanOp.staffSend w o.payload, ChanOp.staffRecv w,
        ChanOp.reqSend o.result], none) := by
  simp [handleOrder, hsel, relayPhase, h1, h2, h3, h4]

/-- The selection phase with the speciality candidate scan running over an
arbitrary enumeration `enum` of the stored candidate set, modelling line 55's
`for sta in self.special[...]`: CPython iterates the set in hash-slot order,
so the only guarantee is that `enum` is some permutation of the set's
members (theorems take that as a hypothesis).  Everything else is exactly
`selectPhase`. -/
def selectPhaseEnum (s : RMState) (c : String) (enum : List String) :
    Except PyErr (Option (String × Nat) × Option String) :=
  match (match dictGet s.special c with
         | some _ => scanIdle s.staff s.busy enum none
         | none => Except.ok (none, none)) with
  | Except.error e => Except.error e
  | Except.ok (found1, sta1) =>
    match found1 with
    | some _ => Except.ok (found1, sta1)
    | none => scanIdle s.staff s.busy (s.staff.map Prod.fst) sta1

/-- The `"order"` branch with the speciality candidate scan running over the
arbitrary set enumeration `enum` (see `selectPhaseEnum`). -/
def handleOrderEnum (s : RMState) (spec : Option String) (enum : List String)
    (o : RelayOracle) : RMState × List ChanOp × Option PyErr :=
  match spec with
  | none => (s, [], some PyErr.keyError)
  | some c =>
    match selectPhaseEnum s c enum with
    | Except.error e => (s, [], some e)
    | Except.ok (found, sta) =>
      match sta with
      | none => (s, [], some PyErr.unboundLocal)
      | some st => relayPhase { s with busy := setAdd s.busy st } st found o

theorem selectPhaseEnum_cap (s : RMState) (c : String) (enum : List String)
    (w : String) (hInv : Inv s)
    (hperm : enum.Perm (specGetD s c))
    (hfind : enum.find? (idleIn s.busy) = some w) :
    ∃ hw, selectPhaseEnum s c enum = Except.ok (some (w, hw), some w) := by
  cases hget : dictGet s.special c with
  | none =>
    exfalso
    have hnil : specGetD s c = [] := by simp [specGetD, hget]
    rw [hnil] at hperm
    rw [hperm.eq_nil] at hfind
    simp at hfind
  | some cands =>
    have hsub : ∀ x ∈ enum, x ∈ s.staff.map Prod.fst := by
      intro x hx
      have hx2 : x ∈ cands := by
        simpa [specGetD, hget] using hperm.mem_iff.mp hx
      exact hInv.specSub (c, cands) (dictGet_mem _ _ _ hget) x hx2
    obtain ⟨hw, hgetw, hscan⟩ :=
      scanIdle_found s.staff s.busy enum none w hsub hfind
    exact ⟨hw, by simp [selectPhaseEnum, hget, hscan]⟩

theorem selectPhaseEnum_fallback (s : RMState) (c : String)
    (enum : List String) (w : String)
    (hfind1 : enum.find? (idleIn s.busy) = none)
    (hfind2 : (s.staff.map Prod.fst).find? (idleIn s.busy) = some w) :
    ∃ hw, selectPhaseEnum s c enum = Except.ok (some (w, hw), some w) := by
  cases hget : dictGet s.special c with
  | none =>
    obtain ⟨hw, hgetw, hscan⟩ := scanIdle_found s.staff s.busy
      (s.staff.map Prod.fst) none w (fun x hx => hx) hfind2
    exact ⟨hw, by simp [selectPhaseEnum, hget, hscan]⟩
  | some cands =>
    obtain ⟨sta1, hscan1⟩ := scanIdle_none s.staff s.busy enum none hfind1
    obtain ⟨hw, hgetw, hscan⟩ := scanIdle_found s.staff s.busy
      (s.staff.map Prod.fst) sta1 w (fun x hx => hx) hfind2
    exact ⟨hw, by simp [selectPhaseEnum, hget, hscan1, hscan]⟩

theorem handleOrderEnum_ok (s : RMState) (c : String) (enum : List String)
    (o : RelayOracle) (w : String) (hw : Nat) (st : String)
    (hsel : selectPhaseEnum s c enum = Except.ok (some (w, hw), some st))
    (h1 : o.reqRecvOk = true) (h2 : o.staffSendOk = true)
    (h3 : o.staffRecvOk = true) (h4 : o.reqSendOk = true) :
    handleOrderEnum s (some c) enum o =
      ({ s with busy := setRemove (setAdd s.busy st) st },
       [ChanOp.reqRecv, ChanOp.staffSend w o.payload, ChanOp.staffRecv w,
        ChanOp.reqSend o.result], none) := by
  simp [handleOrderEnum, hsel, relayPhase, h1, h2, h3, h4]

theorem handleOffduty_missing (s : RMState) (id : String) (hInv : Inv s)
    (hid : id ∉ staffKeys s) :
    handleOffduty s id = (s, some PyErr.keyError) := by
  have hpop : dictPop s.staff id = none := (dictPop_eq_none _ _).mpr hid
  have hscrub : scrub s.special id = s.special :=
    scrub_eq_self _ _ (fun e he hmem => hid (hInv.specSub e he id hmem))
  unfold handleOffduty
  rw [hpop, hscrub]

/-- A state with five registered workers `a` … `e`, none advertising any
speciality, mirroring the repository's own distribution test (five staff,
then speciality-free orders). -/
def fiveStaff : RMState :=
  runEvents [Event.onduty "a" [] 0, Event.onduty "b" [] 1,
    Event.onduty "c" [] 2, Event.onduty "d" [] 3, Event.onduty "e" [] 4]

/-- Whether a channel operation is a payload send to worker `w`. -/
def isSendTo (w : String) : ChanOp → Bool
  | ChanOp.staffSend id _ => decide (id = w)
  | _ => false

/-- How many payloads of a trace were sent to worker `w`. -/
def sendCount (tr : List ChanOp) (w : String) : Nat :=
  (tr.filter (isSendTo w)).length

/-- Dispatch `n` identical order events sequentially (each awaited to
completion before the next), collecting the concatenated channel trace. -/
def runOrders (spec : Option String) (o : RelayOracle) :
    Nat → RMState → RMState × List ChanOp
  | 0, s => (s, [])
  | n + 1, s =>
    ((runOrders spec o n (handleOrder s spec o).1).1,
     (handleOrder s spec o).2.1 ++
       (runOrders spec o n (handleOrder s spec o).1).2)


/-- Claim C1 (failing input): with a single registered worker `"w"` and an
order whose forward-to-worker await raises, the relay error surfaces and
`"w"` is still in the busy set after the dispatch call: the source has no
`try`/`finally` around lines 69-75, so `self.busy.remove(sta)` is skipped on
a relay failure and the worker stays marked busy, contrary to the claim that
the id is removed exactly once even when a relay step raises. -/
theorem C1_relay_failure_strands_worker :
    (handleOrder (runEvents [Event.onduty "w" ["grill"] 0]) (some "grill")
        ⟨true, 5, false, true, 7, true⟩).2.2 = some PyErr.channelError
    ∧ "w" ∈ (handleOrder (runEvents [Event.onduty "w" ["grill"] 0])
        (some "grill") ⟨true, 5, false, true, 7, true⟩).1.busy := by
  decide

/-- Claim C2 (failing input): dispatching an order to the freshly
initialised manager (zero registered workers) raises `UnboundLocalError`
(line 68 reads the never-bound loop variable `sta`), and dispatching to a
state whose only worker is busy pulls the requester's payload and then
raises `AttributeError` (line 70 calls `.send` on `found = None`); neither
is the explicit `NoWorkerAvailable` signal the claim requires. -/
theorem C2_no_worker_unhandled_crash :
    (∀ o : RelayOracle,
        handleOrder initState (some "grill") o =
          (initState, [], some PyErr.unboundLocal))
    ∧ handleOrder ⟨[("w", 0)], [("grill", ["w"])], ["w"]⟩ (some "grill")
        ⟨true, 5, true, true, 7, true⟩ =
      (⟨[("w", 0)], [("grill", ["w"])], ["w"]⟩, [ChanOp.reqRecv],
        some PyErr.attributeError) :=
  ⟨fun _ => rfl, by decide⟩

/-- Claim C3: after any finite sequence of `staff.onduty` and
`staff.offduty` events from the initial empty state, every worker id in any
capability set of the speciality index is a key of the staff registry. -/
theorem C3_index_ids_registered (es : List StaffEvent) (c : String)
    (l : List String) (w : String)
    (hmem : (c, l) ∈ (runStaffEvents es).special) (hw : w ∈ l) :
    w ∈ staffKeys (runStaffEvents es) :=
  (inv_runStaff es).specSub (c, l) hmem w hw

theorem C3_index_ids_registered_witness :
    ((("a", ["w"]) ∈ (runStaffEvents [StaffEvent.onduty "w" ["a"] 0]).special)
      ∧ "w" ∈ ["w"])
    ∧ "w" ∈ staffKeys (runStaffEvents [StaffEvent.onduty "w" ["a"] 0]) :=
  ⟨⟨by decide, by decide⟩,
    C3_index_ids_registered [StaffEvent.onduty "w" ["a"] 0] "a" ["w"] "w"
      (by decide) (by decide)⟩

/-- Claim C4 (counterexample): the claim «w is in the set for capability C
iff w is currently registered and its most recent registration listed C» is
false: after `onduty "w" ["a"]` followed by `onduty "w" []`, worker `"w"` is
still in the set for `"a"` although its most recent registration advertised
nothing — re-registration never removes earlier memberships. -/
theorem C4_counterexample :
    ¬ (∀ (es : List StaffEvent) (c w : String),
        w ∈ specGetD (runStaffEvents es) c ↔
          (w ∈ staffKeys (runStaffEvents es) ∧
            ∃ caps, latestOndutyCaps es w = some caps ∧ c ∈ caps)) := by
  intro hclaim
  have h := (hclaim [StaffEvent.onduty "w" ["a"] 0, StaffEvent.onduty "w" [] 1]
      "a" "w").mp (by decide)
  obtain ⟨-, caps, hcaps, hmem⟩ := h
  have h2 : latestOndutyCaps
      [StaffEvent.onduty "w" ["a"] 0, StaffEvent.onduty "w" [] 1] "w" =
      some [] := by decide
  rw [h2] at hcaps
  injection hcaps with h3
  rw [← h3] at hmem
  simp at hmem

/-- Claim C4 (amended): in every state reachable by `staff.onduty` and
`staff.offduty` events from the initial empty state, a worker id appears in
the capability index's set for capability C iff the worker is currently in
the staff registry and C is among the capabilities listed by its onduty
events since its most recent offduty event (not only its most recent
registration). -/
theorem C4_index_iff_caps_since (es : List StaffEvent) (c w : String) :
    w ∈ specGetD (runStaffEvents es) c ↔
      (w ∈ staffKeys (runStaffEvents es) ∧ c ∈ capsSince es w) := by
  have h := c4_aux es initState (fun _ => []) inv_init
    (fun _ _ => rfl)
    (by intro c2 w2; simp [specGetD, initState, staffKeys, dictGet])
  simpa [runStaffEvents, capsSince] using h c w

/-- Claim C5 (counterexample): the claim says an order whose capability has
an idle advertiser is routed to the first such advertiser «scanned in a
defined, reproducible order (registration order)».  The candidate scan of
line 55 iterates a CPython `set`, whose iteration order is hash-slot order —
some unspecified permutation of the members, not registration order.  With
`"g1"` and `"g2"` both registered (in that order) as idle advertisers of
`"grill"`, the admissible enumeration `["g2", "g1"]` routes the payload to
`"g2"`, not to the registration-order-first advertiser `"g1"`: no routing to
a fixed registration-order-first candidate holds for every admissible set
order. -/
theorem C5_counterexample :
    ¬ (∀ enum : List String,
        enum.Perm (specGetD (runEvents
          [Event.onduty "g1" ["grill"] 0, Event.onduty "g2" ["grill"] 1])
          "grill") →
        (handleOrderEnum (runEvents
          [Event.onduty "g1" ["grill"] 0, Event.onduty "g2" ["grill"] 1])
          (some "grill") enum ⟨true, 5, true, true, 7, true⟩).2.1 =
          [ChanOp.reqRecv, ChanOp.staffSend "g1" 5, ChanOp.staffRecv "g1",
           ChanOp.reqSend 7]) := by
  intro hclaim
  have h := hclaim ["g2", "g1"] (List.Perm.swap "g1" "g2" [])
  have h2 : (handleOrderEnum (runEvents
      [Event.onduty "g1" ["grill"] 0, Event.onduty "g2" ["grill"] 1])
      (some "grill") ["g2", "g1"] ⟨true, 5, true, true, 7, true⟩).2.1 =
      [ChanOp.reqRecv, ChanOp.staffSend "g2" 5, ChanOp.staffRecv "g2",
       ChanOp.reqSend 7] := rfl
  exact absurd (h2.symm.trans h) (by decide)

/-- Claim C5 (amended): in any reachable state, for every admissible
iteration order of the requested speciality's candidate set (any permutation
of its members — CPython's hash order is not registration order), when the
scan order contains an idle worker the order's payload is relayed to the
first idle worker of that scan order, which is an idle advertiser of the
requested capability — so a capability match is preferred over other idle
workers; when no candidate is idle or the speciality is unknown, the payload
goes to the first idle worker of the registry scanned in registration
(dict insertion) order. -/
theorem C5_routing_amended (es : List Event) (c : String)
    (enum : List String) (o : RelayOracle)
    (hperm : enum.Perm (specGetD (runEvents es) c))
    (h1 : o.reqRecvOk = true) (h2 : o.staffSendOk = true)
    (h3 : o.staffRecvOk = true) (h4 : o.reqSendOk = true) :
    (∀ w, enum.find? (idleIn (runEvents es).busy) = some w →
      w ∈ specGetD (runEvents es) c ∧ w ∉ (runEvents es).busy ∧
      (handleOrderEnum (runEvents es) (some c) enum o).2.1 =
        [ChanOp.reqRecv, ChanOp.staffSend w o.payload, ChanOp.staffRecv w,
         ChanOp.reqSend o.result])
    ∧ (enum.find? (idleIn (runEvents es).busy) = none →
      ∀ w, (staffKeys (runEvents es)).find? (idleIn (runEvents es).busy) =
          some w →
        (handleOrderEnum (runEvents es) (some c) enum o).2.1 =
          [ChanOp.reqRecv, ChanOp.staffSend w o.payload, ChanOp.staffRecv w,
           ChanOp.reqSend o.result]) := by
  constructor
  · intro w hfind
    have hmem : w ∈ specGetD (runEvents es) c :=
      hperm.mem_iff.mp (List.mem_of_find?_eq_some hfind)
    have hidle : w ∉ (runEvents es).busy := by
      simpa [idleIn] using List.find?_some hfind
    obtain ⟨hw, hsel⟩ := selectPhaseEnum_cap (runEvents es) c enum w
      (inv_runEvents es) hperm hfind
    refine ⟨hmem, hidle, ?_⟩
    rw [handleOrderEnum_ok (runEvents es) c enum o w hw w hsel h1 h2 h3 h4]
  · intro hnone w hfind
    obtain ⟨hw, hsel⟩ :=
      selectPhaseEnum_fallback (runEvents es) c enum w hnone hfind
    rw [handleOrderEnum_ok (runEvents es) c enum o w hw w hsel h1 h2 h3 h4]

theorem C5_routing_amended_witness :
    ((["g"] : List String).Perm (specGetD (runEvents
        [Event.onduty "a" [] 0, Event.onduty "g" ["grill"] 1]) "grill")
      ∧ (["g"] : List String).find? (idleIn (runEvents
        [Event.onduty "a" [] 0, Event.onduty "g" ["grill"] 1]).busy) =
        some "g")
    ∧ ("g" ∈ specGetD (runEvents
        [Event.onduty "a" [] 0, Event.onduty "g" ["grill"] 1]) "grill"
      ∧ (handleOrderEnum (runEvents
          [Event.onduty "a" [] 0, Event.onduty "g" ["grill"] 1])
          (some "grill") ["g"] ⟨true, 5, true, true, 7, true⟩).2.1 =
        [ChanOp.reqRecv, ChanOp.staffSend "g" 5, ChanOp.staffRecv "g",
         ChanOp.reqSend 7])
    ∧ (([] : List String).Perm (specGetD (runEvents
        [Event.onduty "a" [] 0, Event.onduty "g" ["grill"] 1]) "x")
      ∧ (handleOrderEnum (runEvents
          [Event.onduty "a" [] 0, Event.onduty "g" ["grill"] 1])
          (some "x") [] ⟨true, 5, true, true, 7, true⟩).2.1 =
        [ChanOp.reqRecv, ChanOp.staffSend "a" 5, ChanOp.staffRecv "a",
         ChanOp.reqSend 7]) :=
  ⟨⟨List.Perm.refl ["g"], by decide⟩,
   ⟨((C5_routing_amended
        [Event.onduty "a" [] 0, Event.onduty "g" ["grill"] 1] "grill" ["g"]
        ⟨true, 5, true, true, 7, true⟩ (List.Perm.refl ["g"])
        rfl rfl rfl rfl).1 "g" (by decide)).1,
    ((C5_routing_amended
        [Event.onduty "a" [] 0, Event.onduty "g" ["grill"] 1] "grill" ["g"]
        ⟨true, 5, true, true, 7, true⟩ (List.Perm.refl ["g"])
        rfl rfl rfl rfl).1 "g" (by decide)).2.2⟩,
   ⟨List.Perm.nil,
    (C5_routing_amended
        [Event.onduty "a" [] 0, Event.onduty "g" ["grill"] 1] "x" []
        ⟨true, 5, true, true, 7, true⟩ List.Perm.nil
        rfl rfl rfl rfl).2 rfl "a" (by decide)⟩⟩

/-- Claim C6 (failing input): an order event whose scope has no
`"speciality"` key makes the handler raise `KeyError` at line 54 before any
scan, for every state — including states with idle registered workers — and
for every relay behaviour, instead of performing the fallback scan the claim
(and the repository's own tests, which send exactly such orders) expect. -/
theorem C6_missing_speciality_key (s : RMState) (o : RelayOracle) :
    handleOrder s none o = (s, [], some PyErr.keyError) := rfl

/-- Claim C7: whenever the selection phase picks a worker and all four
relay awaits succeed, the channel trace of the dispatch is exactly the
four-element sequence «pull payload from requester, send it to the selected
worker, pull the worker's result, send it to the requester» — each operation
once, in that order — and no error is raised. -/
theorem C7_relay_sequence (s : RMState) (c : String) (o : RelayOracle)
    (w : String) (hw : Nat) (st : String)
    (hsel : selectPhase s c = Except.ok (some (w, hw), some st))
    (h1 : o.reqRecvOk = true) (h2 : o.staffSendOk = true)
    (h3 : o.staffRecvOk = true) (h4 : o.reqSendOk = true) :
    (handleOrder s (some c) o).2.1 =
      [ChanOp.reqRecv, ChanOp.staffSend w o.payload, ChanOp.staffRecv w,
       ChanOp.reqSend o.result]
    ∧ (handleOrder s (some c) o).2.2 = none := by
  rw [handleOrder_ok s c o w hw st hsel h1 h2 h3 h4]
  exact ⟨rfl, rfl⟩

theorem C7_relay_sequence_witness :
    selectPhase (runEvents [Event.onduty "g" ["grill"] 0]) "grill" =
      Except.ok (some ("g", 0), some "g")
    ∧ (handleOrder (runEvents [Event.onduty "g" ["grill"] 0]) (some "grill")
        ⟨true, 5, true, true, 7, true⟩).2.1 =
      [ChanOp.reqRecv, ChanOp.staffSend "g" 5, ChanOp.staffRecv "g",
       ChanOp.reqSend 7] :=
  ⟨rfl,
   (C7_relay_sequence (runEvents [Event.onduty "g" ["grill"] 0]) "grill"
      ⟨true, 5, true, true, 7, true⟩ "g" 0 "g" rfl
      rfl rfl rfl rfl).1⟩

/-- Claim C8 (failing input): with five registered idle workers, an order
without a speciality key (the repository's own distribution test sends
exactly these) raises `KeyError` instead of being relayed at all; and even
with the speciality lookup sidestepped (an unknown speciality `"x"`), 100
sequentially awaited orders all go to the first-registered worker `"a"`
— the busy set empties between sequential orders, so the distribution is
100/0/0/0/0, not 20 each. -/
theorem C8_distribution_skew :
    (handleOrder fiveStaff none ⟨true, 5, true, true, 7, true⟩).2.2 =
      some PyErr.keyError
    ∧ sendCount
        (runOrders (some "x") ⟨true, 5, true, true, 7, true⟩ 100 fiveStaff).2
        "a" = 100
    ∧ sendCount
        (runOrders (some "x") ⟨true, 5, true, true, 7, true⟩ 100 fiveStaff).2
        "b" = 0
    ∧ sendCount
        (runOrders (some "x") ⟨true, 5, true, true, 7, true⟩ 100 fiveStaff).2
        "c" = 0
    ∧ sendCount
        (runOrders (some "x") ⟨true, 5, true, true, 7, true⟩ 100 fiveStaff).2
        "d" = 0
    ∧ sendCount
        (runOrders (some "x") ⟨true, 5, true, true, 7, true⟩ 100 fiveStaff).2
        "e" = 0 := by
  refine ⟨rfl, ?_, ?_, ?_, ?_, ?_⟩ <;> rfl

/-- Claim C9: in every reachable state, a `staff.offduty` event for an
unregistered id raises the `KeyError` lookup failure and leaves the whole
state (registry and capability index) unchanged, while for a registered id
it succeeds, removes the registry entry (other entries untouched) and
removes the id from every capability set. -/
theorem C9_offduty_behavior (es : List Event) (id : String) :
    (id ∉ staffKeys (runEvents es) →
        handleOffduty (runEvents es) id = (runEvents es, some PyErr.keyError))
    ∧ (id ∈ staffKeys (runEvents es) →
        (handleOffduty (runEvents es) id).2 = none
        ∧ id ∉ staffKeys ((handleOffduty (runEvents es) id).1)
        ∧ (∀ w, w ≠ id →
            (w ∈ staffKeys ((handleOffduty (runEvents es) id).1) ↔
              w ∈ staffKeys (runEvents es)))
        ∧ ∀ e ∈ ((handleOffduty (runEvents es) id).1).special,
            id ∉ (e.2 : List String)) := by
  constructor
  · intro hid
    exact handleOffduty_missing (runEvents es) id (inv_runEvents es) hid
  · intro hid
    have hInv := inv_runEvents es
    obtain ⟨st, hpop⟩ : ∃ st, dictPop (runEvents es).staff id = some st := by
      cases hp : dictPop (runEvents es).staff id with
      | none => exact absurd hid ((dictPop_eq_none _ _).mp hp)
      | some st => exact ⟨st, rfl⟩
    have hres : handleOffduty (runEvents es) id =
        ({ staff := st, special := scrub (runEvents es).special id,
           busy := (runEvents es).busy }, none) := by
      unfold handleOffduty
      rw [hpop]
    refine ⟨by rw [hres], ?_, ?_, ?_⟩
    · rw [hres]
      show id ∉ st.map Prod.fst
      rw [dictPop_keys _ _ _ hpop]
      exact hInv.staffNodup.not_mem_erase
    · intro w hwid
      rw [hres]
      show w ∈ st.map Prod.fst ↔ w ∈ staffKeys (runEvents es)
      rw [dictPop_keys _ _ _ hpop]
      exact List.mem_erase_of_ne hwid
    · intro e he
      rw [hres] at he
      rcases mem_scrub _ _ _ he with ⟨l, hl, he2⟩
      rw [he2]
      have hnd : l.Nodup := hInv.specListsNodup (e.1, l) hl
      by_cases h : id ∈ l
      · rw [if_pos h]
        exact hnd.not_mem_erase
      · rw [if_neg h]
        exact h

theorem C9_offduty_behavior_witness :
    handleOffduty (runEvents [Event.onduty "w" ["a"] 0]) "x" =
      (runEvents [Event.onduty "w" ["a"] 0], some PyErr.keyError)
    ∧ (handleOffduty (runEvents [Event.onduty "w" ["a"] 0]) "w").2 = none
    ∧ "w" ∉ staffKeys
        ((handleOffduty (runEvents [Event.onduty "w" ["a"] 0]) "w").1) :=
  ⟨(C9_offduty_behavior [Event.onduty "w" ["a"] 0] "x").1 (by decide),
   ((C9_offduty_behavior [Event.onduty "w" ["a"] 0] "w").2 (by decide)).1,
   ((C9_offduty_behavior [Event.onduty "w" ["a"] 0] "w").2 (by decide)).2.1⟩

/-- Claim C10: processing a `staff.onduty` event never removes any id from
any capability set: every existing membership survives, the stored channel
handle for the re-registered id is replaced by the new one, and the id is
additionally present in the set of every newly listed capability. -/
theorem C10_onduty_preserves_index (s : RMState) (id : String)
    (caps : List String) (handle : Nat) :
    (∀ c w, w ∈ specGetD s c → w ∈ specGetD (handleOnduty s id caps handle) c)
    ∧ dictGet (handleOnduty s id caps handle).staff id = some handle
    ∧ ∀ c ∈ caps, id ∈ specGetD (handleOnduty s id caps handle) c := by
  refine ⟨?_, ?_, ?_⟩
  · intro c w hwmem
    show w ∈ (dictGet (handleOnduty s id caps handle).special c).getD []
    simp only [handleOnduty]
    rw [mem_specFold]
    exact Or.inl hwmem
  · show dictGet (dictSet s.staff id handle) id = some handle
    rw [dictGet_dictSet]
    simp
  · intro c hc
    show id ∈ (dictGet (handleOnduty s id caps handle).special c).getD []
    simp only [handleOnduty]
    rw [mem_specFold]
    exact Or.inr ⟨rfl, hc⟩

theorem C10_onduty_preserves_index_witness :
    ("w" ∈ specGetD (runStaffEvents [StaffEvent.onduty "w" ["a"] 0]) "a"
      ∧ "b" ∈ ["b"])
    ∧ "w" ∈ specGetD (handleOnduty
        (runStaffEvents [StaffEvent.onduty "w" ["a"] 0]) "w" ["b"] 1) "a"
    ∧ dictGet (handleOnduty
        (runStaffEvents [StaffEvent.onduty "w" ["a"] 0]) "w" ["b"] 1).staff
        "w" = some 1
    ∧ "w" ∈ specGetD (handleOnduty
        (runStaffEvents [StaffEvent.onduty "w" ["a"] 0]) "w" ["b"] 1) "b" :=
  ⟨⟨by decide, by decide⟩,
   (C10_onduty_preserves_index
      (runStaffEvents [StaffEvent.onduty "w" ["a"] 0]) "w" ["b"] 1).1 "a" "w"
      (by decide),
   (C10_onduty_preserves_index
      (runStaffEvents [StaffEvent.onduty "w" ["a"] 0]) "w" ["b"] 1).2.1,
   (C10_onduty_preserves_index
      (runStaffEvents [StaffEvent.onduty "w" ["a"] 0]) "w" ["b"] 1).2.2 "b"
      (by decide)⟩

end Qualifier
